import Mathlib

/-!
# k8s-jobs-cleaner: the deletion sweep of `cmd/cleaner/main.go`

A shallow embedding of the loop of `main` (lines 61-91) together with the Go
standard-library functions it calls (`strconv.Atoi`, `strings.ToLower`,
`time.Time.Add`, `time.Time.Before`), followed by theorems about which job
records a sweep deletes.

Conventions of the embedding:

* Go `int` is 64 bits wide (`strconv.IntSize = 64`); `int`, `int64` and
  `time.Duration` values are `Int`s kept in range with `wrapInt64`, `uint64`
  values are `Nat`s reduced modulo `2 ^ 64`.
* A Go `string` is a Lean `String`. Annotation values reach the program through
  the JSON decoder and are valid UTF-8, so a byte loop that stops at the first
  byte outside a set of ASCII bytes is a character loop that stops at the first
  character outside that set; `len(s)` is `String.utf8ByteSize`.
* A `time.Time` is its wall-clock reading: `sec` is what `t.sec()` returns and
  `nsec` what `t.nsec()` returns. The seconds counter is an unbounded `Int`
  (Go's `int64` counter spans 292 billion years; a `Duration` moves it by at
  most 292 years).
* `map[string]string` is an association list read with `List.lookup`.
* The cluster (the clock and the delete endpoint) is a pair of functions over
  an arbitrary world state; the sweep returns the world it leaves and the trace
  of log entries and delete calls it produced. What the delete endpoint receives
  is read off the world: `recording c` is `c` with a recorder on `Delete`.
-/

namespace Cleaner

/-! ## Fixed-width integers -/

/-- Two's-complement reduction of an integer to the range of `int64`. -/
def wrapInt64 (x : Int) : Int :=
  (x + 9223372036854775808) % 18446744073709551616 - 9223372036854775808

/-- Reduction of a natural number to the range of `uint64`. -/
def wrapUint64 (x : Nat) : Nat := x % 18446744073709551616

/-! ## package time -/

/-- A `time.Duration`: a signed 64-bit count of nanoseconds. -/
abbrev Duration := Int

/-- The constant `time.Second`. -/
def Second : Duration := 1000000000

/-- The constant `time.Hour` (`60 * Minute`, `Minute = 60 * Second`). -/
def Hour : Duration := 60 * (60 * Second)

/-- The wall-clock reading of a `time.Time`: seconds and the nanoseconds within
the second, `0 ≤ nsec < 1e9`. -/
structure Time where
  sec : Int
  nsec : Int
  nsec_nonneg : 0 ≤ nsec
  nsec_lt : nsec < 1000000000
  deriving DecidableEq

/-- Position of an instant on the time line, in nanoseconds. -/
def Time.nanos (t : Time) : Int := t.sec * 1000000000 + t.nsec

/-- An instant a whole number of seconds after the origin. -/
def Time.ofSeconds (s : Int) : Time := ⟨s, 0, by decide, by decide⟩

/-- `func (t Time) Add(d Duration) Time` for a time without a monotonic reading:
`dsec := d / 1e9; nsec := t.nsec() + d % 1e9`, then one carry or borrow. Go's `/`
and `%` truncate toward zero. -/
def Time.Add (t : Time) (d : Duration) : Time :=
  let dsec := d.tdiv 1000000000
  let nsec := t.nsec + d.tmod 1000000000
  if h1 : nsec ≥ 1000000000 then
    ⟨t.sec + (dsec + 1), nsec - 1000000000, by omega, by
      have hhi : d.tmod 1000000000 < 1000000000 := Int.tmod_lt_of_pos d (by decide)
      have := t.nsec_lt
      omega⟩
  else if h2 : nsec < 0 then
    ⟨t.sec + (dsec - 1), nsec + 1000000000, by
      have hlo : -1000000000 < d.tmod 1000000000 := by
        rcases Int.le_total 0 d with h | h
        · have := Int.tmod_nonneg 1000000000 h
          omega
        · obtain ⟨n, rfl⟩ := Int.exists_eq_neg_ofNat h
          have hneg : (-(n : Int)).tmod 1000000000 = -((n : Int).tmod 1000000000) := by
            cases n with
            | zero => simp
            | succ m => rfl
          rw [hneg]
          have := Int.tmod_lt_of_pos (n : Int) (b := 1000000000) (by decide)
          omega
      have := t.nsec_nonneg
      omega, by omega⟩
  else
    ⟨t.sec + dsec, nsec, by omega, by omega⟩

/-- `func (t Time) Before(u Time) bool` on wall-clock readings:
`ts < us || ts == us && t.nsec() < u.nsec()`. -/
def Time.Before (t u : Time) : Bool :=
  decide (t.sec < u.sec) || (decide (t.sec = u.sec) && decide (t.nsec < u.nsec))

/-! ## package strconv -/

/-- The two causes a `*strconv.NumError` can carry. -/
inductive ConvErr where
  | ErrSyntax
  | ErrRange
  deriving DecidableEq

/-- The fast-path loop of `strconv.Atoi`:
`ch -= '0'; if ch > 9 { return 0, syntaxError }; n = n*10 + int(ch)`. -/
def atoiFastLoop : List Char → Int → Int × Option ConvErr
  | [], n => (n, none)
  | ch :: rest, n =>
    if 48 ≤ ch.toNat ∧ ch.toNat ≤ 57 then
      atoiFastLoop rest (wrapInt64 (n * 10 + ((ch.toNat - 48 : Nat) : Int)))
    else (0, some ConvErr.ErrSyntax)

/-- The helper `lower(c) = c | ('x' - 'X')` of package strconv. -/
def lower (c : Nat) : Nat := c ||| 32

/-- The digit a character stands for in `ParseUint`: `c - '0'` for `'0'..'9'`,
`lower(c) - 'a' + 10` for an ASCII letter, nothing otherwise. Every byte of a
character above 127 is above `'z'` also after `lower`. -/
def digitValue (c : Char) : Option Nat :=
  if 48 ≤ c.toNat ∧ c.toNat ≤ 57 then some (c.toNat - 48)
  else if c.toNat < 128 ∧ 97 ≤ lower c.toNat ∧ lower c.toNat ≤ 122 then
    some (lower c.toNat - 97 + 10)
  else none

/-- The constant `maxUint64/10 + 1`, the cutoff of `ParseUint` in base 10. -/
def uintCutoff : Nat := 18446744073709551615 / 10 + 1

/-- The bound `maxVal = 1<<64 - 1` of `ParseUint` with `bitSize = 64`. -/
def maxVal : Nat := 18446744073709551615

/-- The digit loop of `strconv.ParseUint(s, 10, 0)`. -/
def parseUintLoop : List Char → Nat → Nat × Option ConvErr
  | [], n => (n, none)
  | c :: rest, n =>
    match digitValue c with
    | none => (0, some ConvErr.ErrSyntax)
    | some d =>
      if d ≥ 10 then (0, some ConvErr.ErrSyntax)
      else if n ≥ uintCutoff then (maxVal, some ConvErr.ErrRange)
      else
        let n10 := wrapUint64 (n * 10)
        let n1 := wrapUint64 (n10 + d)
        if n1 < n10 ∨ n1 > maxVal then (maxVal, some ConvErr.ErrRange)
        else parseUintLoop rest n1

/-- `strconv.ParseUint(s, 10, 0)`. -/
def ParseUint (s : List Char) : Nat × Option ConvErr :=
  if s = [] then (0, some ConvErr.ErrSyntax) else parseUintLoop s 0

/-- The part of `strconv.ParseInt` after the sign has been picked off. -/
def parseIntSigned (neg : Bool) (digits : List Char) : Int × Option ConvErr :=
  let r := ParseUint digits
  if r.2 = some ConvErr.ErrSyntax then (0, some ConvErr.ErrSyntax)
  else
    let un := r.1
    let cutoff : Nat := 9223372036854775808
    if !neg ∧ un ≥ cutoff then ((cutoff : Int) - 1, some ConvErr.ErrRange)
    else if neg ∧ un > cutoff then (-(cutoff : Int), some ConvErr.ErrRange)
    else
      let n := wrapInt64 (un : Int)
      (if neg then wrapInt64 (-n) else n, none)

/-- `strconv.ParseInt(s, 10, 0)`. -/
def ParseInt (s : List Char) : Int × Option ConvErr :=
  match s with
  | [] => (0, some ConvErr.ErrSyntax)
  | c :: rest =>
    if c = '+' then parseIntSigned false rest
    else if c = '-' then parseIntSigned true rest
    else parseIntSigned false (c :: rest)

/-- The fast path of `strconv.Atoi`, taken when `0 < len(s) < 19`. -/
def atoiFast (s : List Char) : Int × Option ConvErr :=
  match s with
  | [] => (0, some ConvErr.ErrSyntax)
  | c :: rest =>
    let digits := if c = '-' ∨ c = '+' then rest else c :: rest
    if digits.length < 1 then (0, some ConvErr.ErrSyntax)
    else
      let r := atoiFastLoop digits 0
      match r.2 with
      | some e => (0, some e)
      | none => (if c = '-' then wrapInt64 (-r.1) else r.1, none)

/-- `func Atoi(s string) (int, error)`: the value returned together with the
error, `0` on a malformed string and the nearest `int` on one out of range. -/
def Atoi (s : String) : Int × Option ConvErr :=
  if 0 < s.utf8ByteSize ∧ s.utf8ByteSize < 19 then atoiFast s.data
  else ParseInt s.data

/-! ## package strings -/

/-- `func ToLower(s string) string`: an ASCII-only string is returned as is when
it has no upper-case letter and otherwise with `'a' - 'A'` added to each of
`'A'..'Z'`; any other string is mapped through `unicode.ToLower`, whose case
tables are the parameter `unicodeToLower`. -/
def ToLower (unicodeToLower : Char → Char) (s : String) : String :=
  if s.data.all (fun c => decide (c.toNat < 128)) then
    if s.data.any (fun c => decide (65 ≤ c.toNat ∧ c.toNat ≤ 90)) then
      String.mk (s.data.map fun c =>
        if 65 ≤ c.toNat ∧ c.toNat ≤ 90 then Char.ofNat (c.toNat + 32) else c)
    else s
  else String.mk (s.data.map unicodeToLower)

/-! ## The cleaner -/

/-- The constant `ignoreAnnotation`. -/
def ignoreAnnotation : String := "jhe.io/ignore"

/-- The constant `deleteAfterSecondsAnnotation`. -/
def deleteAfterSecondsAnnotation : String := "jhe.io/delete-after-seconds"

/-- The variable `defaultDeleteAfterSeconds = int(time.Hour.Seconds())`: an hour
is a whole number of seconds, so the conversion through `float64` is exact. -/
def defaultDeleteAfterSeconds : Int := Hour / Second

/-- The fields of a `batchv1.Job` that `main` reads. -/
structure Job where
  Name : String
  Namespace : String
  CompletionTime : Option Time
  Annotations : List (String × String)

/-- Kinds of failure of the delete endpoint. -/
inductive StatusReason where
  | NotFound
  | Forbidden
  | Transient
  deriving DecidableEq

/-- An error returned by `Jobs(namespace).Delete`. -/
structure DeleteError where
  reason : StatusReason
  message : String
  deriving DecidableEq

/-- What one sweep does that can be observed from outside: its log entries, one
constructor per logging call of the loop, and its calls of the delete endpoint. -/
inductive Event where
  | notFinished (job : String)
  | ignored (job : String)
  | cannotConvert (job : String) (err : ConvErr)
  | readyForDeletion (job : String)
  | deleteCall (ns : String) (name : String)
  | deleteFailed (job : String) (err : DeleteError)
  deriving DecidableEq

/-- The two capabilities the loop consumes, over a world state `σ`: `time.Now()`
and `clientset.BatchV1().Jobs(namespace).Delete(name, nil)`. -/
structure Cluster (σ : Type) where
  Now : σ → Time × σ
  Delete : String → String → σ → Option DeleteError × σ

/-- Line 72: `ignore, ok := job.Annotations[ignoreAnnotation];
ok && strings.ToLower(ignore) == "true"`. -/
def isIgnored (unicodeToLower : Char → Char) (job : Job) : Bool :=
  match List.lookup ignoreAnnotation job.Annotations with
  | some ignore => decide (ToLower unicodeToLower ignore = "true")
  | none => false

/-- Lines 77-83: `secs` and `err` after the retention override has been read.
`secs, err = strconv.Atoi(delAfterSecs)` assigns both results also when the
conversion fails. -/
def retentionSeconds (job : Job) : Int × Option ConvErr :=
  match List.lookup deleteAfterSecondsAnnotation job.Annotations with
  | some delAfterSecs => Atoi delAfterSecs
  | none => (defaultDeleteAfterSeconds, none)

/-- The operand `time.Duration(secs) * time.Second` of line 85, an `int64`
product. -/
def retentionDuration (job : Job) : Int :=
  wrapInt64 ((retentionSeconds job).1 * Second)

/-- One iteration of the loop of `main` (lines 61-91): the world state after it
and the events it produced. -/
def processJob {σ : Type} (unicodeToLower : Char → Char) (c : Cluster σ) (s : σ)
    (job : Job) : σ × List Event :=
  let name := job.Name
  match job.CompletionTime with
  | none => (s, [Event.notFinished name])
  | some completion =>
    if isIgnored unicodeToLower job then (s, [Event.ignored name])
    else
      let conv : List Event :=
        match List.lookup deleteAfterSecondsAnnotation job.Annotations with
        | some _ =>
          match (retentionSeconds job).2 with
          | some err => [Event.cannotConvert name err]
          | none => []
        | none => []
      let now := c.Now s
      if (completion.Add (retentionDuration job)).Before now.1 then
        let res := c.Delete job.Namespace name now.2
        let failed : List Event :=
          match res.1 with
          | some err => [Event.deleteFailed name err]
          | none => []
        (res.2, conv ++ [Event.readyForDeletion name, Event.deleteCall job.Namespace name]
          ++ failed)
      else (now.2, conv)

/-- The loop `for _, job := range jobs.Items` of `main`. -/
def sweep {σ : Type} (unicodeToLower : Char → Char) (c : Cluster σ) (s : σ) :
    List Job → σ × List Event
  | [] => (s, [])
  | job :: rest =>
    let r := processJob unicodeToLower c s job
    let r2 := sweep unicodeToLower c r.1 rest
    (r2.1, r.2 ++ r2.2)

/-- The delete invocations in a trace, in order, as `(namespace, name)`. -/
def deleteCalls : List Event → List (String × String)
  | [] => []
  | Event.deleteCall ns name :: rest => (ns, name) :: deleteCalls rest
  | _ :: rest => deleteCalls rest

/-- The condition under which an iteration reaches the `Delete` call when the
clock reads `now`: both guards passed and the age test of line 85 holds. -/
def eligible (unicodeToLower : Char → Char) (job : Job) (now : Time) : Bool :=
  match job.CompletionTime with
  | none => false
  | some completion =>
    !isIgnored unicodeToLower job && (completion.Add (retentionDuration job)).Before now


/-! ## Vocabulary of the specification -/

/-- The number a list of decimal digit characters denotes, continuing from `acc`. -/
def decimalValue (acc : Nat) (l : List Char) : Nat :=
  l.foldl (fun n c => n * 10 + (c.toNat - 48)) acc

/-- All spellings of a word that differ from it only in the case of ASCII
letters. -/
def caseVariants : List Char → List (List Char)
  | [] => [[]]
  | c :: rest =>
    (caseVariants rest).map (fun r => c.toLower :: r) ++
      (caseVariants rest).map (fun r => c.toUpper :: r)

/-- The record with every entry under `key` taken out of its annotations. -/
def Job.erase (job : Job) (key : String) : Job :=
  { job with Annotations := job.Annotations.filter (fun kv => !(kv.1 == key)) }

/-! ## Sample records and clusters -/

/-- A cluster whose clock reads `nowSeconds` whole seconds at every call and whose
delete endpoint answers every call with `result`. -/
def fixedCluster (nowSeconds : Int) (result : Option DeleteError) : Cluster Unit :=
  ⟨fun s => (Time.ofSeconds nowSeconds, s), fun _ _ s => (result, s)⟩

/-- A record in namespace `default`, completed `completion` seconds after the
origin when that is given. -/
def sampleJob (name : String) (completion : Option Int)
    (annotations : List (String × String)) : Job :=
  ⟨name, "default", completion.map Time.ofSeconds, annotations⟩

/-- The error of a delete call on a record that is already gone. -/
def notFoundError : DeleteError := ⟨StatusReason.NotFound, "jobs.batch not found"⟩

/-- A cluster whose clock starts at `startSeconds` whole seconds and has advanced
by one second at every further reading; the world counts the readings taken. The
delete endpoint answers every call with `result`. -/
def tickingCluster (startSeconds : Int) (result : Option DeleteError) : Cluster Nat :=
  ⟨fun n => (Time.ofSeconds (startSeconds + (n : Int)), n + 1), fun _ _ n => (result, n)⟩

/-! ## Observing the delete endpoint -/

/-- The cluster `c` with a recorder on its delete endpoint: next to the world of
`c`, the world holds the `(namespace, name)` pairs `Delete` has been applied to,
oldest first. The clock and the answers of `Delete` are those of `c`. -/
def recording {σ : Type} (c : Cluster σ) : Cluster (σ × List (String × String)) :=
  ⟨fun w => ((c.Now w.1).1, ((c.Now w.1).2, w.2)),
   fun ns name w => ((c.Delete ns name w.1).1, ((c.Delete ns name w.1).2, w.2 ++ [(ns, name)]))⟩

/-- The clock readings of a sweep, one per record in input order: what
`time.Now()` returns in the world in which the iteration for that record
starts. -/
def readings {σ : Type} (unicodeToLower : Char → Char) (c : Cluster σ) (s : σ) :
    List Job → List Time
  | [] => []
  | job :: rest =>
    (c.Now s).1 :: readings unicodeToLower c (processJob unicodeToLower c s job).1 rest

/-- The records of a sweep that are eligible at the clock reading of their own
iteration, in input order, as `(namespace, name)`. -/
def eligibleAtOwnReading {σ : Type} (unicodeToLower : Char → Char) (c : Cluster σ) (s : σ)
    (jobs : List Job) : List (String × String) :=
  ((jobs.zip (readings unicodeToLower c s jobs)).filter
    (fun p => eligible unicodeToLower p.1 p.2)).map (fun p => (p.1.Namespace, p.1.Name))

/-! ## Lemmas on the time model -/

theorem Time.nanos_Add (t : Time) (d : Duration) : (t.Add d).nanos = t.nanos + d := by
  have h := Int.tmod_add_tdiv d 1000000000
  unfold Time.Add Time.nanos
  dsimp only
  split_ifs <;> dsimp only <;> omega

theorem Time.Before_iff (t u : Time) : t.Before u = true ↔ t.nanos < u.nanos := by
  have h1 := t.nsec_nonneg
  have h2 := t.nsec_lt
  have h3 := u.nsec_nonneg
  have h4 := u.nsec_lt
  unfold Time.Before Time.nanos
  simp only [Bool.or_eq_true, Bool.and_eq_true, decide_eq_true_eq]
  constructor
  · rintro (h | ⟨h, h'⟩) <;> omega
  · intro h
    by_cases hs : t.sec < u.sec
    · exact Or.inl hs
    · right
      constructor <;> omega

theorem wrapInt64_of_range (x : Int) (h1 : -9223372036854775808 ≤ x)
    (h2 : x ≤ 9223372036854775807) : wrapInt64 x = x := by
  unfold wrapInt64
  omega

/-! ## Lemmas on the loop body -/

theorem deleteCalls_append (xs ys : List Event) :
    deleteCalls (xs ++ ys) = deleteCalls xs ++ deleteCalls ys := by
  induction xs with
  | nil => rfl
  | cons e rest ih => cases e <;> simp [deleteCalls, ih]

theorem eligible_iff (unicodeToLower : Char → Char) (job : Job) (now : Time) :
    eligible unicodeToLower job now = true ↔
      ∃ t, job.CompletionTime = some t ∧ isIgnored unicodeToLower job = false ∧
        t.nanos + retentionDuration job < now.nanos := by
  unfold eligible
  cases hc : job.CompletionTime with
  | none => simp
  | some t =>
    simp only [Bool.and_eq_true, Bool.not_eq_true', Time.Before_iff, Time.nanos_Add,
      Option.some.injEq, exists_eq_left']

theorem processJob_trace {σ : Type} (unicodeToLower : Char → Char) (c : Cluster σ) (s : σ)
    (job : Job) :
    deleteCalls (processJob unicodeToLower c s job).2 =
      if eligible unicodeToLower job (c.Now s).1 then [(job.Namespace, job.Name)] else [] := by
  unfold processJob eligible
  cases hc : job.CompletionTime with
  | none => simp [deleteCalls]
  | some t =>
    dsimp only
    cases hi : isIgnored unicodeToLower job with
    | true => simp [deleteCalls]
    | false =>
      simp only [Bool.not_false, Bool.true_and, Bool.false_eq_true, if_false]
      have hconv : deleteCalls
          (match List.lookup deleteAfterSecondsAnnotation job.Annotations with
            | some _ =>
              match (retentionSeconds job).2 with
              | some err => [Event.cannotConvert job.Name err]
              | none => []
            | none => []) = [] := by
        cases List.lookup deleteAfterSecondsAnnotation job.Annotations with
        | none => rfl
        | some v =>
          cases (retentionSeconds job).2 with
          | none => rfl
          | some err => rfl
      have hfail : ∀ r : Option DeleteError, deleteCalls
          (match r with
            | some err => [Event.deleteFailed job.Name err]
            | none => []) = [] := by
        intro r
        cases r <;> rfl
      split_ifs with hb
      · simp only [deleteCalls_append, hconv, hfail, deleteCalls, List.nil_append,
          List.append_nil]
      · exact hconv

/-! ## Lemmas on `strconv.Atoi` -/

theorem decimalValue_cons (acc : Nat) (c : Char) (l : List Char) :
    decimalValue acc (c :: l) = decimalValue (acc * 10 + (c.toNat - 48)) l := rfl

theorem decimalValue_append_singleton (acc : Nat) (l : List Char) (c : Char) :
    decimalValue acc (l ++ [c]) = decimalValue acc l * 10 + (c.toNat - 48) := by
  simp [decimalValue, List.foldl_append]

theorem le_decimalValue (l : List Char) : ∀ acc : Nat, acc ≤ decimalValue acc l := by
  induction l with
  | nil => intro acc; exact Nat.le_refl _
  | cons c rest ih =>
    intro acc
    rw [decimalValue_cons]
    have := ih (acc * 10 + (c.toNat - 48))
    omega

theorem digitChar_toNat (k : Nat) (h : k < 10) :
    48 ≤ (Nat.digitChar k).toNat ∧ (Nat.digitChar k).toNat ≤ 57 ∧
      (Nat.digitChar k).toNat - 48 = k := by
  interval_cases k <;> decide

theorem toDigitsCore_decimal (fuel : Nat) : ∀ (n : Nat) (ds : List Char), n < fuel →
    ∃ l : List Char, Nat.toDigitsCore 10 fuel n ds = l ++ ds ∧ l ≠ [] ∧
      (∀ c ∈ l, 48 ≤ c.toNat ∧ c.toNat ≤ 57) ∧ decimalValue 0 l = n := by
  induction fuel with
  | zero => intro n ds h; omega
  | succ fuel ih =>
    intro n ds h
    have hd := digitChar_toNat (n % 10) (Nat.mod_lt _ (by decide))
    unfold Nat.toDigitsCore
    dsimp only
    split_ifs with h0
    · refine ⟨[Nat.digitChar (n % 10)], rfl, by simp, ?_, ?_⟩
      · intro c hc
        rw [List.mem_singleton] at hc
        subst hc
        exact ⟨hd.1, hd.2.1⟩
      · simp only [decimalValue, List.foldl_cons, List.foldl_nil]
        omega
    · obtain ⟨l, hl, _, hdig, hval⟩ := ih (n / 10) (Nat.digitChar (n % 10) :: ds) (by omega)
      refine ⟨l ++ [Nat.digitChar (n % 10)], ?_, by simp, ?_, ?_⟩
      · rw [hl]; simp
      · intro c hc
        rcases List.mem_append.mp hc with hc | hc
        · exact hdig c hc
        · rw [List.mem_singleton] at hc
          subst hc
          exact ⟨hd.1, hd.2.1⟩
      · rw [decimalValue_append_singleton, hval]
        omega

theorem toString_decimal (r : Nat) :
    (toString r).data ≠ [] ∧ (∀ c ∈ (toString r).data, 48 ≤ c.toNat ∧ c.toNat ≤ 57) ∧
      decimalValue 0 (toString r).data = r := by
  obtain ⟨l, hl, hne, hdig, hval⟩ := toDigitsCore_decimal (r + 1) r [] (Nat.lt_succ_self r)
  have hdata : (toString r).data = l := by
    show (Nat.toDigits 10 r) = l
    unfold Nat.toDigits
    rw [hl, List.append_nil]
  rw [hdata]
  exact ⟨hne, hdig, hval⟩

theorem atoiFastLoop_digits (l : List Char) : ∀ acc : Nat,
    (∀ c ∈ l, 48 ≤ c.toNat ∧ c.toNat ≤ 57) → decimalValue acc l < 9223372036854775808 →
    atoiFastLoop l (acc : Int) = (((decimalValue acc l : Nat) : Int), none) := by
  induction l with
  | nil => intro acc _ _; rfl
  | cons c rest ih =>
    intro acc hdig hval
    have hc := hdig c (List.mem_cons_self _ _)
    rw [decimalValue_cons] at hval ⊢
    have hle := le_decimalValue rest (acc * 10 + (c.toNat - 48))
    unfold atoiFastLoop
    rw [if_pos hc]
    have hw : wrapInt64 ((acc : Int) * 10 + ((c.toNat - 48 : Nat) : Int)) =
        ((acc * 10 + (c.toNat - 48) : Nat) : Int) := by
      rw [wrapInt64_of_range] <;> push_cast <;> omega
    rw [hw]
    exact ih _ (fun c hc => hdig c (List.mem_cons_of_mem _ hc)) hval

theorem parseUintLoop_digits (l : List Char) : ∀ acc : Nat,
    (∀ c ∈ l, 48 ≤ c.toNat ∧ c.toNat ≤ 57) → decimalValue acc l < 18446744073709551616 →
    parseUintLoop l acc = (decimalValue acc l, none) := by
  induction l with
  | nil => intro acc _ _; rfl
  | cons c rest ih =>
    intro acc hdig hval
    have hc := hdig c (List.mem_cons_self _ _)
    rw [decimalValue_cons] at hval ⊢
    have hle := le_decimalValue rest (acc * 10 + (c.toNat - 48))
    unfold parseUintLoop
    have hdv : digitValue c = some (c.toNat - 48) := by
      unfold digitValue
      rw [if_pos hc]
    rw [hdv]
    dsimp only
    have h1 : ¬ (c.toNat - 48 ≥ 10) := by omega
    have h2 : ¬ (acc ≥ uintCutoff) := by
      unfold uintCutoff
      omega
    have h3 : wrapUint64 (wrapUint64 (acc * 10) + (c.toNat - 48)) = acc * 10 + (c.toNat - 48) := by
      unfold wrapUint64
      omega
    have h4 : wrapUint64 (acc * 10) = acc * 10 := by
      unfold wrapUint64
      omega
    rw [if_neg h1, if_neg h2, h3, h4]
    have h5 : ¬ (acc * 10 + (c.toNat - 48) < acc * 10 ∨ acc * 10 + (c.toNat - 48) > maxVal) := by
      unfold maxVal
      omega
    rw [if_neg h5]
    exact ih _ (fun c hc => hdig c (List.mem_cons_of_mem _ hc)) hval

theorem Atoi_digits (s : String) (hne : s.data ≠ [])
    (hdig : ∀ c ∈ s.data, 48 ≤ c.toNat ∧ c.toNat ≤ 57)
    (hval : decimalValue 0 s.data < 9223372036854775808) :
    Atoi s = (((decimalValue 0 s.data : Nat) : Int), none) := by
  obtain ⟨c, rest, hs⟩ := List.exists_cons_of_ne_nil hne
  have hc : 48 ≤ c.toNat ∧ c.toNat ≤ 57 := hdig c (by rw [hs]; exact List.mem_cons_self _ _)
  have hminus : c ≠ '-' := by
    intro h
    subst h
    revert hc
    decide
  have hplus : c ≠ '+' := by
    intro h
    subst h
    revert hc
    decide
  rw [hs] at hdig hval
  unfold Atoi
  rw [hs]
  split_ifs
  · unfold atoiFast
    dsimp only
    have hsel : (if c = '-' ∨ c = '+' then rest else c :: rest) = c :: rest := by
      rw [if_neg]
      rintro (h | h)
      · exact hminus h
      · exact hplus h
    rw [hsel]
    have hloop := atoiFastLoop_digits (c :: rest) 0 hdig hval
    simp only [Nat.cast_zero] at hloop
    rw [hloop]
    simp [hminus]
  · unfold ParseInt
    dsimp only
    rw [if_neg hplus, if_neg hminus]
    unfold parseIntSigned ParseUint
    have hloop := parseUintLoop_digits (c :: rest) 0 hdig (by omega)
    simp only [List.cons_ne_nil, if_false] at hloop ⊢
    rw [hloop]
    simp only [Bool.not_false, true_and, Bool.false_eq_true, false_and, if_false]
    rw [if_neg (by simp), if_neg (by omega)]
    rw [wrapInt64_of_range] <;> omega

theorem Atoi_toString (r : Nat) (h : r < 9223372036854775808) :
    Atoi (toString r) = ((r : Int), none) := by
  obtain ⟨hne, hdig, hval⟩ := toString_decimal r
  have := Atoi_digits (toString r) hne hdig (by rw [hval]; exact h)
  rw [hval] at this
  exact this

theorem retentionDuration_default (job : Job)
    (h : List.lookup deleteAfterSecondsAnnotation job.Annotations = none) :
    retentionDuration job = 3600 * 1000000000 := by
  unfold retentionDuration retentionSeconds
  rw [h]
  decide

theorem retentionDuration_decimal (job : Job) (r : Nat) (hr : r ≤ 9223372036)
    (h : List.lookup deleteAfterSecondsAnnotation job.Annotations = some (toString r)) :
    retentionDuration job = (r : Int) * 1000000000 := by
  unfold retentionDuration retentionSeconds
  rw [h]
  dsimp only
  rw [Atoi_toString r (by omega)]
  dsimp only [Second]
  rw [wrapInt64_of_range] <;> omega

theorem ToLower_ascii (f : Char → Char) (s : String)
    (h : s.data.all (fun c => decide (c.toNat < 128)) = true) :
    ToLower f s = ToLower id s := by
  unfold ToLower
  rw [if_pos h, if_pos h]

theorem ToLower_caseVariant_true (f : Char → Char) (v : String)
    (h : v.data ∈ caseVariants "true".data) : ToLower f v = "true" := by
  have key : ∀ l ∈ caseVariants "true".data,
      l.all (fun c => decide (c.toNat < 128)) = true ∧ ToLower id (String.mk l) = "true" := by
    decide
  obtain ⟨h1, h2⟩ := key v.data h
  rw [ToLower_ascii f v h1]
  exact h2

/-! ## Lemmas on the world after an iteration -/

theorem processJob_world {σ : Type} (unicodeToLower : Char → Char) (c : Cluster σ) (s : σ)
    (job : Job) :
    (processJob unicodeToLower c s job).1 =
      if job.CompletionTime.isNone || isIgnored unicodeToLower job then s
      else if eligible unicodeToLower job (c.Now s).1 then
        (c.Delete job.Namespace job.Name (c.Now s).2).2
      else (c.Now s).2 := by
  unfold processJob eligible
  cases hc : job.CompletionTime with
  | none => simp
  | some t =>
    dsimp only
    cases hi : isIgnored unicodeToLower job with
    | true => simp
    | false =>
      simp only [Bool.false_eq_true, if_false, Bool.not_false, Bool.true_and,
        Option.isNone_some, Bool.or_self]
      split_ifs <;> rfl

theorem processJob_recording {σ : Type} (unicodeToLower : Char → Char) (c : Cluster σ) (s : σ)
    (calls : List (String × String)) (job : Job) :
    processJob unicodeToLower (recording c) (s, calls) job =
      (((processJob unicodeToLower c s job).1,
        calls ++ deleteCalls (processJob unicodeToLower c s job).2),
       (processJob unicodeToLower c s job).2) := by
  rw [processJob_trace]
  unfold processJob eligible
  cases hc : job.CompletionTime with
  | none => simp
  | some t =>
    dsimp only
    cases hi : isIgnored unicodeToLower job with
    | true => simp
    | false =>
      simp only [Bool.false_eq_true, if_false, Bool.not_false, Bool.true_and, recording]
      split_ifs <;> simp

theorem sweep_recording {σ : Type} (unicodeToLower : Char → Char) (c : Cluster σ)
    (jobs : List Job) : ∀ (s : σ) (calls : List (String × String)),
    sweep unicodeToLower (recording c) (s, calls) jobs =
      (((sweep unicodeToLower c s jobs).1,
        calls ++ deleteCalls (sweep unicodeToLower c s jobs).2),
       (sweep unicodeToLower c s jobs).2) := by
  induction jobs with
  | nil => intro s calls; simp [sweep, deleteCalls]
  | cons job rest ih =>
    intro s calls
    unfold sweep
    dsimp only
    rw [processJob_recording]
    dsimp only
    rw [ih, deleteCalls_append, List.append_assoc]

theorem eligibleAtOwnReading_cons {σ : Type} (unicodeToLower : Char → Char) (c : Cluster σ)
    (s : σ) (job : Job) (rest : List Job) :
    eligibleAtOwnReading unicodeToLower c s (job :: rest) =
      (if eligible unicodeToLower job (c.Now s).1 then [(job.Namespace, job.Name)] else []) ++
        eligibleAtOwnReading unicodeToLower c (processJob unicodeToLower c s job).1 rest := by
  show List.map _ (List.filter _ (List.zip (job :: rest)
    ((c.Now s).1 :: readings unicodeToLower c (processJob unicodeToLower c s job).1 rest))) = _
  rw [List.zip_cons_cons, List.filter_cons]
  dsimp only
  cases eligible unicodeToLower job (c.Now s).1 <;> simp [eligibleAtOwnReading]

theorem sweep_trace_readings {σ : Type} (unicodeToLower : Char → Char) (c : Cluster σ)
    (jobs : List Job) : ∀ s : σ,
    deleteCalls (sweep unicodeToLower c s jobs).2 = eligibleAtOwnReading unicodeToLower c s jobs := by
  induction jobs with
  | nil => intro s; rfl
  | cons job rest ih =>
    intro s
    rw [eligibleAtOwnReading_cons, ← ih, ← processJob_trace, ← deleteCalls_append]
    rfl

theorem eligibleAtOwnReading_const {σ : Type} (unicodeToLower : Char → Char) (c : Cluster σ)
    (now : Time) (jobs : List Job) : ∀ s : σ,
    (∀ t ∈ readings unicodeToLower c s jobs, t = now) →
    eligibleAtOwnReading unicodeToLower c s jobs =
      (jobs.filter (fun job => eligible unicodeToLower job now)).map
        (fun job => (job.Namespace, job.Name)) := by
  induction jobs with
  | nil => intro s _; rfl
  | cons job rest ih =>
    intro s h
    have h0 : (c.Now s).1 = now := h _ (List.mem_cons_self _ _)
    have hrest := ih (processJob unicodeToLower c s job).1
      (fun t ht => h t (List.mem_cons_of_mem _ ht))
    rw [eligibleAtOwnReading_cons, hrest, h0, List.filter_cons]
    cases eligible unicodeToLower job now <;> simp

theorem eligible_of_le (unicodeToLower : Char → Char) (job : Job) (now now2 : Time)
    (hle : now.nanos ≤ now2.nanos) (h : eligible unicodeToLower job now = true) :
    eligible unicodeToLower job now2 = true := by
  rw [eligible_iff] at h ⊢
  obtain ⟨t, h1, h2, h3⟩ := h
  exact ⟨t, h1, h2, by omega⟩

theorem filter_eligible_cons (unicodeToLower : Char → Char) (now : Time) (job : Job)
    (rest : List Job) :
    ((job :: rest).filter (fun job => eligible unicodeToLower job now)).map
        (fun job => (job.Namespace, job.Name)) =
      (if eligible unicodeToLower job now then [(job.Namespace, job.Name)] else []) ++
        (rest.filter (fun job => eligible unicodeToLower job now)).map
          (fun job => (job.Namespace, job.Name)) := by
  rw [List.filter_cons]
  cases eligible unicodeToLower job now <;> simp

theorem eligibleAtOwnReading_between {σ : Type} (unicodeToLower : Char → Char) (c : Cluster σ)
    (lo hi : Time) (jobs : List Job) : ∀ s : σ,
    (∀ t ∈ readings unicodeToLower c s jobs, lo.nanos ≤ t.nanos ∧ t.nanos ≤ hi.nanos) →
    List.Sublist
      ((jobs.filter (fun job => eligible unicodeToLower job lo)).map
        (fun job => (job.Namespace, job.Name)))
      (eligibleAtOwnReading unicodeToLower c s jobs) ∧
    List.Sublist (eligibleAtOwnReading unicodeToLower c s jobs)
      ((jobs.filter (fun job => eligible unicodeToLower job hi)).map
        (fun job => (job.Namespace, job.Name))) := by
  induction jobs with
  | nil => intro s _; exact ⟨List.Sublist.refl _, List.Sublist.refl _⟩
  | cons job rest ih =>
    intro s h
    have h0 := h (c.Now s).1 (List.mem_cons_self _ _)
    obtain ⟨ih1, ih2⟩ := ih (processJob unicodeToLower c s job).1
      (fun t ht => h t (List.mem_cons_of_mem _ ht))
    rw [eligibleAtOwnReading_cons, filter_eligible_cons, filter_eligible_cons]
    constructor
    · refine List.Sublist.append ?_ ih1
      by_cases hlo : eligible unicodeToLower job lo = true
      · rw [if_pos hlo, if_pos (eligible_of_le unicodeToLower job lo _ h0.1 hlo)]
      · rw [if_neg hlo]
        exact List.nil_sublist _
    · refine List.Sublist.append ?_ ih2
      by_cases hown : eligible unicodeToLower job (c.Now s).1 = true
      · rw [if_pos hown, if_pos (eligible_of_le unicodeToLower job _ hi h0.2 hown)]
      · rw [if_neg hown]
        exact List.nil_sublist _

theorem processJob_of_eligible_iff {σ : Type} (unicodeToLower : Char → Char) (c : Cluster σ)
    (s : σ) (job : Job) (t : Time) (P : Prop) [Decidable P]
    (hdone : job.CompletionTime = some t)
    (hign : isIgnored unicodeToLower job = false)
    (he : eligible unicodeToLower job (c.Now s).1 = true ↔ P) :
    (processJob unicodeToLower c s job).1 =
      (if P then (c.Delete job.Namespace job.Name (c.Now s).2).2 else (c.Now s).2) ∧
    (∀ calls : List (String × String),
      (processJob unicodeToLower (recording c) (s, calls) job).1.2 =
        if P then calls ++ [(job.Namespace, job.Name)] else calls) ∧
    deleteCalls (processJob unicodeToLower c s job).2 =
      (if P then [(job.Namespace, job.Name)] else []) := by
  have htrace : deleteCalls (processJob unicodeToLower c s job).2 =
      (if P then [(job.Namespace, job.Name)] else []) := by
    rw [processJob_trace]
    by_cases hp : P
    · rw [if_pos hp, if_pos (he.mpr hp)]
    · rw [if_neg hp, if_neg (fun h => hp (he.mp h))]
  refine ⟨?_, ?_, htrace⟩
  · rw [processJob_world, hdone, hign]
    simp only [Option.isNone_some, Bool.or_self, Bool.false_eq_true, if_false]
    by_cases hp : P
    · rw [if_pos hp, if_pos (he.mpr hp)]
    · rw [if_neg hp, if_neg (fun h => hp (he.mp h))]
  · intro calls
    rw [processJob_recording, htrace]
    by_cases hp : P
    · rw [if_pos hp, if_pos hp]
    · rw [if_neg hp, if_neg hp, List.append_nil]

/-! ## The claims -/

/-- C1 (the code departs from the claim): a finished record whose retention
override is the malformed value `notanumber` is deleted one second after its
completion, although the same record without the override is kept; `Atoi`
returns `0` with its error and line 79 stores that `0` in `secs`. -/
theorem malformed_override_deletes_after_one_second :
    Atoi "notanumber" = (0, some ConvErr.ErrSyntax) ∧
    deleteCalls (processJob id (fixedCluster 101 none) ()
      (sampleJob "e" (some 100) [("jhe.io/delete-after-seconds", "notanumber")])).2
        = [("default", "e")] ∧
    deleteCalls (processJob id (fixedCluster 101 none) ()
      (Job.erase (sampleJob "e" (some 100) [("jhe.io/delete-after-seconds", "notanumber")])
        deleteAfterSecondsAnnotation)).2 = [] := by
  decide

/-- C2: a record whose completion timestamp is absent produces no delete call,
whatever its annotations, the clock and the cluster; the world is left as it was
and the only event is the "not finished" log entry. -/
theorem unfinished_job_never_deleted {σ : Type} (unicodeToLower : Char → Char)
    (c : Cluster σ) (s : σ) (job : Job) (h : job.CompletionTime = none) :
    deleteCalls (processJob unicodeToLower c s job).2 = [] ∧
      processJob unicodeToLower c s job = (s, [Event.notFinished job.Name]) := by
  have hp : processJob unicodeToLower c s job = (s, [Event.notFinished job.Name]) := by
    unfold processJob
    rw [h]
  rw [hp]
  exact ⟨rfl, rfl⟩

theorem unfinished_job_never_deleted_witness :
    deleteCalls (processJob id (fixedCluster 1000000 none) ()
      (sampleJob "f" none [("jhe.io/delete-after-seconds", "0")])).2 = [] :=
  (unfinished_job_never_deleted id (fixedCluster 1000000 none) ()
    (sampleJob "f" none [("jhe.io/delete-after-seconds", "0")]) rfl).1

/-- C3: a record whose `jhe.io/ignore` annotation is `true` in any mix of upper
and lower case never has the delete endpoint applied to it, whatever its
completion timestamp, its other annotations, the clock and the cluster: the
iteration leaves the world as it found it, a recorder on the delete endpoint
receives nothing, and the trace holds no delete call. -/
theorem ignored_job_never_deleted {σ : Type} (unicodeToLower : Char → Char)
    (c : Cluster σ) (s : σ) (job : Job) (v : String)
    (hv : List.lookup ignoreAnnotation job.Annotations = some v)
    (hcase : v.data ∈ caseVariants "true".data) :
    (processJob unicodeToLower c s job).1 = s ∧
    (∀ calls : List (String × String),
      (processJob unicodeToLower (recording c) (s, calls) job).1 = (s, calls)) ∧
    deleteCalls (processJob unicodeToLower c s job).2 = [] := by
  have hi : isIgnored unicodeToLower job = true := by
    unfold isIgnored
    rw [hv]
    simp only [decide_eq_true_eq]
    exact ToLower_caseVariant_true unicodeToLower v hcase
  have hworld : (processJob unicodeToLower c s job).1 = s := by
    rw [processJob_world, hi, Bool.or_true, if_pos rfl]
  have htrace : deleteCalls (processJob unicodeToLower c s job).2 = [] := by
    rw [processJob_trace]
    have he : eligible unicodeToLower job (c.Now s).1 = false := by
      unfold eligible
      cases job.CompletionTime with
      | none => rfl
      | some t => simp [hi]
    rw [he]
    rfl
  refine ⟨hworld, ?_, htrace⟩
  intro calls
  rw [processJob_recording, hworld, htrace, List.append_nil]

theorem ignored_job_never_deleted_witness :
    (processJob id (recording (fixedCluster 1000000000 none)) ((), [])
      (sampleJob "c" (some 0)
        [("jhe.io/ignore", "tRuE"), ("jhe.io/delete-after-seconds", "0")])).1 = ((), []) :=
  (ignored_job_never_deleted id (fixedCluster 1000000000 none) ()
    (sampleJob "c" (some 0) [("jhe.io/ignore", "tRuE"), ("jhe.io/delete-after-seconds", "0")])
    "tRuE" (by decide) (by decide)).2.1 []

/-- C4: a finished, non-ignored record without a retention override, completed
at `t`, is deleted exactly when `t + 3600 s < now`, where `now` is the clock
reading of its iteration; at `t + 3600 s = now` it is kept. Deleted means that
the delete endpoint is applied to the record's namespace and name: the world
after the iteration is the one that call returns, and a recorder on the endpoint
receives exactly that pair; kept means that the world is the one the clock
reading left and the recorder receives nothing. -/
theorem default_retention_strict {σ : Type} (unicodeToLower : Char → Char)
    (c : Cluster σ) (s : σ) (job : Job) (t : Time)
    (hdone : job.CompletionTime = some t)
    (hign : isIgnored unicodeToLower job = false)
    (hnone : List.lookup deleteAfterSecondsAnnotation job.Annotations = none) :
    (processJob unicodeToLower c s job).1 =
      (if t.nanos + 3600 * 1000000000 < (c.Now s).1.nanos then
        (c.Delete job.Namespace job.Name (c.Now s).2).2
      else (c.Now s).2) ∧
    (∀ calls : List (String × String),
      (processJob unicodeToLower (recording c) (s, calls) job).1.2 =
        if t.nanos + 3600 * 1000000000 < (c.Now s).1.nanos then
          calls ++ [(job.Namespace, job.Name)]
        else calls) ∧
    deleteCalls (processJob unicodeToLower c s job).2 =
      (if t.nanos + 3600 * 1000000000 < (c.Now s).1.nanos then [(job.Namespace, job.Name)]
      else []) := by
  have he : eligible unicodeToLower job (c.Now s).1 = true ↔
      t.nanos + 3600 * 1000000000 < (c.Now s).1.nanos := by
    rw [eligible_iff, ← retentionDuration_default job hnone]
    constructor
    · rintro ⟨t2, h1, _, h3⟩
      rw [hdone] at h1
      cases h1
      exact h3
    · intro h
      exact ⟨t, hdone, hign, h⟩
  exact processJob_of_eligible_iff unicodeToLower c s job t _ hdone hign he

theorem default_retention_strict_witness :
    (processJob id (recording (fixedCluster 3600 none)) ((), [])
      (sampleJob "b" (some 0) [])).1.2 = [] ∧
    (processJob id (recording (fixedCluster 3601 none)) ((), [])
      (sampleJob "a" (some 0) [])).1.2 = [("default", "a")] :=
  ⟨((default_retention_strict id (fixedCluster 3600 none) () (sampleJob "b" (some 0) [])
      (Time.ofSeconds 0) rfl (by decide) (by decide)).2.1 []).trans (by decide),
   ((default_retention_strict id (fixedCluster 3601 none) () (sampleJob "a" (some 0) [])
      (Time.ofSeconds 0) rfl (by decide) (by decide)).2.1 []).trans (by decide)⟩

/-- C5 as written fails: the override `9223372037` does not postpone deletion by
9223372037 seconds. The product with `time.Second` leaves the `int64` range and
wraps to a negative duration, so the record is deleted one second after its
completion. -/
theorem huge_override_not_exact :
    toString (9223372037 : Nat) = "9223372037" ∧
    eligible id (sampleJob "g" (some 0) [("jhe.io/delete-after-seconds", "9223372037")])
      (Time.ofSeconds 1) = true ∧
    ¬ ((Time.ofSeconds 1).nanos > (Time.ofSeconds 0).nanos + 9223372037 * 1000000000) ∧
    retentionDuration (sampleJob "g" (some 0) [("jhe.io/delete-after-seconds", "9223372037")])
      = -9223372036709551616 := by
  decide

/-- C5, amended: for a finished, non-ignored record completed at `t` whose
retention override is the decimal string of a natural number `r ≤ 9223372036`,
the record is eligible for deletion exactly when `now > t + r s`: the override
replaces the default of 3600 and the deadline is the exact sum. -/
theorem override_retention_exact (unicodeToLower : Char → Char) (job : Job) (t now : Time)
    (r : Nat) (hr : r ≤ 9223372036)
    (hdone : job.CompletionTime = some t)
    (hign : isIgnored unicodeToLower job = false)
    (hsecs : List.lookup deleteAfterSecondsAnnotation job.Annotations = some (toString r)) :
    (eligible unicodeToLower job now = true ↔ now.nanos > t.nanos + (r : Int) * 1000000000) ∧
      retentionSeconds job = ((r : Int), none) := by
  constructor
  · rw [eligible_iff, retentionDuration_decimal job r hr hsecs]
    constructor
    · rintro ⟨t2, h1, _, h3⟩
      rw [hdone] at h1
      cases h1
      exact h3
    · intro h
      exact ⟨t, hdone, hign, h⟩
  · unfold retentionSeconds
    rw [hsecs]
    exact Atoi_toString r (by omega)

theorem override_retention_exact_witness :
    eligible id (sampleJob "d" (some 0) [("jhe.io/delete-after-seconds", "10")])
      (Time.ofSeconds 11) = true ∧
    eligible id (sampleJob "d" (some 0) [("jhe.io/delete-after-seconds", "10")])
      (Time.ofSeconds 10) = false :=
  ⟨((override_retention_exact id
      (sampleJob "d" (some 0) [("jhe.io/delete-after-seconds", "10")])
      (Time.ofSeconds 0) (Time.ofSeconds 11) 10 (by decide) rfl (by decide) (by decide)).1).mpr
      (by decide),
   by decide⟩

/-- C6 as written fails: the override `-5` gives a retention of minus five
seconds, and a record completed at second 100 is deleted when the clock reads
second 99, before its completion. -/
theorem negative_override_deletes_before_completion :
    retentionDuration (sampleJob "n" (some 100) [("jhe.io/delete-after-seconds", "-5")])
      = -5000000000 ∧
    ¬ ((Time.ofSeconds 100).nanos < (Time.ofSeconds 99).nanos) ∧
    deleteCalls (processJob id (fixedCluster 99 none) ()
      (sampleJob "n" (some 100) [("jhe.io/delete-after-seconds", "-5")])).2
        = [("default", "n")] ∧
    (processJob id (recording (fixedCluster 99 none)) ((), [])
      (sampleJob "n" (some 100) [("jhe.io/delete-after-seconds", "-5")])).1.2
        = [("default", "n")] := by
  decide

/-- C6, amended: when the retention override is absent, or is the decimal string
of a natural number `r ≤ 9223372036`, the retention used in the age test is not
negative, and a finished record is not deleted while the clock has not passed its
completion timestamp: the delete endpoint is not applied (the world after the
iteration is the one it started in or the one the clock reading left, and a
recorder on the endpoint receives nothing) and the trace holds no delete call. -/
theorem retention_nonneg_of_wellformed {σ : Type} (unicodeToLower : Char → Char)
    (c : Cluster σ) (s : σ) (job : Job) (t : Time)
    (hwf : List.lookup deleteAfterSecondsAnnotation job.Annotations = none ∨
      ∃ r : Nat, r ≤ 9223372036 ∧
        List.lookup deleteAfterSecondsAnnotation job.Annotations = some (toString r))
    (hdone : job.CompletionTime = some t)
    (hnow : (c.Now s).1.nanos ≤ t.nanos) :
    0 ≤ retentionDuration job ∧
    ((processJob unicodeToLower c s job).1 = s ∨
      (processJob unicodeToLower c s job).1 = (c.Now s).2) ∧
    (∀ calls : List (String × String),
      (processJob unicodeToLower (recording c) (s, calls) job).1.2 = calls) ∧
    deleteCalls (processJob unicodeToLower c s job).2 = [] := by
  have hnn : 0 ≤ retentionDuration job := by
    rcases hwf with h | ⟨r, hr, h⟩
    · rw [retentionDuration_default job h]
      decide
    · rw [retentionDuration_decimal job r hr h]
      omega
  have he : ¬ (eligible unicodeToLower job (c.Now s).1 = true) := by
    rw [eligible_iff]
    rintro ⟨t2, h1, _, h3⟩
    rw [hdone] at h1
    cases h1
    omega
  have htrace : deleteCalls (processJob unicodeToLower c s job).2 = [] := by
    rw [processJob_trace, if_neg he]
  refine ⟨hnn, ?_, ?_, htrace⟩
  · rw [processJob_world, if_neg he]
    by_cases hg : (job.CompletionTime.isNone || isIgnored unicodeToLower job) = true
    · rw [if_pos hg]
      exact Or.inl rfl
    · rw [if_neg hg]
      exact Or.inr rfl
  · intro calls
    rw [processJob_recording, htrace, List.append_nil]

theorem retention_nonneg_of_wellformed_witness :
    0 ≤ retentionDuration (sampleJob "z" (some 100) [("jhe.io/delete-after-seconds", "0")]) ∧
    (processJob id (recording (fixedCluster 100 none)) ((), [])
      (sampleJob "z" (some 100) [("jhe.io/delete-after-seconds", "0")])).1.2 = [] :=
  ⟨(retention_nonneg_of_wellformed id (fixedCluster 100 none) ()
      (sampleJob "z" (some 100) [("jhe.io/delete-after-seconds", "0")]) (Time.ofSeconds 100)
      (Or.inr ⟨0, by decide, by decide⟩) rfl (by decide)).1,
   (retention_nonneg_of_wellformed id (fixedCluster 100 none) ()
      (sampleJob "z" (some 100) [("jhe.io/delete-after-seconds", "0")]) (Time.ofSeconds 100)
      (Or.inr ⟨0, by decide, by decide⟩) rfl (by decide)).2.2.1 []⟩

/-- C7: for every cluster (every clock and every behaviour of the delete
endpoint: any answer to any call, any change of the world), every world and
every list of records, the calls the delete endpoint receives during one sweep
are exactly the records that are eligible at the clock reading of their own
iteration, in input order, one call per record with that record's namespace and
name; a failed call neither stops the sweep nor is repeated. When the readings
of the sweep all equal `now` these are the records eligible at `now`; when they
all lie between `lo` and `hi` every record eligible at `lo` is among them and
all of them are eligible at `hi`. The trace of the sweep lists the same calls. -/
theorem sweep_deletes_eligible_in_order {σ : Type} (unicodeToLower : Char → Char)
    (c : Cluster σ) (s : σ) (calls : List (String × String)) (jobs : List Job) :
    (sweep unicodeToLower (recording c) (s, calls) jobs).1 =
      ((sweep unicodeToLower c s jobs).1,
        calls ++ eligibleAtOwnReading unicodeToLower c s jobs) ∧
    (∀ now : Time, (∀ t ∈ readings unicodeToLower c s jobs, t = now) →
      (sweep unicodeToLower (recording c) (s, calls) jobs).1.2 =
        calls ++ (jobs.filter (fun job => eligible unicodeToLower job now)).map
          (fun job => (job.Namespace, job.Name))) ∧
    (∀ lo hi : Time,
      (∀ t ∈ readings unicodeToLower c s jobs, lo.nanos ≤ t.nanos ∧ t.nanos ≤ hi.nanos) →
      List.Sublist
        ((jobs.filter (fun job => eligible unicodeToLower job lo)).map
          (fun job => (job.Namespace, job.Name)))
        (eligibleAtOwnReading unicodeToLower c s jobs) ∧
      List.Sublist (eligibleAtOwnReading unicodeToLower c s jobs)
        ((jobs.filter (fun job => eligible unicodeToLower job hi)).map
          (fun job => (job.Namespace, job.Name)))) ∧
    deleteCalls (sweep unicodeToLower c s jobs).2 =
      eligibleAtOwnReading unicodeToLower c s jobs := by
  have hrec : (sweep unicodeToLower (recording c) (s, calls) jobs).1 =
      ((sweep unicodeToLower c s jobs).1,
        calls ++ eligibleAtOwnReading unicodeToLower c s jobs) := by
    rw [sweep_recording, sweep_trace_readings]
  refine ⟨hrec, ?_, ?_, sweep_trace_readings unicodeToLower c jobs s⟩
  · intro now hnow
    rw [hrec, eligibleAtOwnReading_const unicodeToLower c now jobs s hnow]
  · intro lo hi hbetween
    exact eligibleAtOwnReading_between unicodeToLower c lo hi jobs s hbetween

theorem sweep_deletes_eligible_in_order_witness :
    (sweep id (recording (tickingCluster 3601 (some ⟨StatusReason.Forbidden, "forbidden"⟩)))
      (0, [])
      [sampleJob "b" (some 1) [], sampleJob "a" (some 0) [], sampleJob "f" none [],
       sampleJob "c" (some 0) [("jhe.io/ignore", "true")],
       sampleJob "d" (some 3000) [("jhe.io/delete-after-seconds", "10")],
       sampleJob "b2" (some 1) []]).1
      = (4, [("default", "a"), ("default", "d"), ("default", "b2")]) ∧
    (sweep id (recording (fixedCluster 3601 (some ⟨StatusReason.Forbidden, "forbidden"⟩)))
      ((), [])
      [sampleJob "b" (some 1) [], sampleJob "a" (some 0) [], sampleJob "f" none [],
       sampleJob "c" (some 0) [("jhe.io/ignore", "true")],
       sampleJob "d" (some 3000) [("jhe.io/delete-after-seconds", "10")],
       sampleJob "b2" (some 1) []]).1.2
      = [("default", "a"), ("default", "d")] :=
  ⟨((sweep_deletes_eligible_in_order id
      (tickingCluster 3601 (some ⟨StatusReason.Forbidden, "forbidden"⟩)) 0 []
      [sampleJob "b" (some 1) [], sampleJob "a" (some 0) [], sampleJob "f" none [],
       sampleJob "c" (some 0) [("jhe.io/ignore", "true")],
       sampleJob "d" (some 3000) [("jhe.io/delete-after-seconds", "10")],
       sampleJob "b2" (some 1) []]).1).trans (by decide),
   ((sweep_deletes_eligible_in_order id
      (fixedCluster 3601 (some ⟨StatusReason.Forbidden, "forbidden"⟩)) () []
      [sampleJob "b" (some 1) [], sampleJob "a" (some 0) [], sampleJob "f" none [],
       sampleJob "c" (some 0) [("jhe.io/ignore", "true")],
       sampleJob "d" (some 3000) [("jhe.io/delete-after-seconds", "10")],
       sampleJob "b2" (some 1) []]).2.1 (Time.ofSeconds 3601) (by decide)).trans (by decide)⟩

/-- C8 as written fails: when the delete endpoint answers "not found" for an
eligible record the sweep logs a delete error for it, which it does not when the
delete succeeds, so the two reported outcomes differ. -/
theorem not_found_reported_as_error :
    (processJob id (fixedCluster 3601 (some notFoundError)) () (sampleJob "a" (some 0) [])).2
      = [Event.readyForDeletion "a", Event.deleteCall "default" "a",
         Event.deleteFailed "a" notFoundError] ∧
    (processJob id (fixedCluster 3601 none) () (sampleJob "a" (some 0) [])).2
      = [Event.readyForDeletion "a", Event.deleteCall "default" "a"] ∧
    notFoundError.reason = StatusReason.NotFound := by
  decide

/-- C8, amended: for an eligible record the sweep logs a delete error exactly
when the delete endpoint returned that error, of whatever kind, "not found"
included; either way the sweep goes on with the remaining records from the world
the delete call left. -/
theorem delete_error_reported_and_sweep_continues {σ : Type} (unicodeToLower : Char → Char)
    (c : Cluster σ) (s : σ) (job : Job) (rest : List Job)
    (helig : eligible unicodeToLower job (c.Now s).1 = true) :
    (∀ err : DeleteError, Event.deleteFailed job.Name err ∈ (processJob unicodeToLower c s job).2 ↔
      (c.Delete job.Namespace job.Name (c.Now s).2).1 = some err) ∧
    sweep unicodeToLower c s (job :: rest) =
      ((sweep unicodeToLower c (c.Delete job.Namespace job.Name (c.Now s).2).2 rest).1,
       (processJob unicodeToLower c s job).2 ++
        (sweep unicodeToLower c (c.Delete job.Namespace job.Name (c.Now s).2).2 rest).2) := by
  unfold eligible at helig
  cases hc : job.CompletionTime with
  | none => rw [hc] at helig; simp at helig
  | some t =>
    rw [hc] at helig
    simp only [Bool.and_eq_true, Bool.not_eq_true'] at helig
    obtain ⟨hi, hb⟩ := helig
    have hp : processJob unicodeToLower c s job =
        ((c.Delete job.Namespace job.Name (c.Now s).2).2,
          (match List.lookup deleteAfterSecondsAnnotation job.Annotations with
            | some _ =>
              match (retentionSeconds job).2 with
              | some err => [Event.cannotConvert job.Name err]
              | none => []
            | none => []) ++
          [Event.readyForDeletion job.Name, Event.deleteCall job.Namespace job.Name] ++
          (match (c.Delete job.Namespace job.Name (c.Now s).2).1 with
            | some err => [Event.deleteFailed job.Name err]
            | none => [])) := by
      unfold processJob
      rw [hc]
      simp only [hi, Bool.false_eq_true, if_false, hb, if_true]
    constructor
    · intro err
      rw [hp]
      dsimp only
      cases List.lookup deleteAfterSecondsAnnotation job.Annotations with
      | none =>
        cases (c.Delete job.Namespace job.Name (c.Now s).2).1 with
        | none => simp
        | some e => simp [eq_comm]
      | some v =>
        cases (retentionSeconds job).2 with
        | none =>
          cases (c.Delete job.Namespace job.Name (c.Now s).2).1 with
          | none => simp
          | some e => simp [eq_comm]
        | some ce =>
          cases (c.Delete job.Namespace job.Name (c.Now s).2).1 with
          | none => simp
          | some e => simp [eq_comm]
    · show ((sweep unicodeToLower c (processJob unicodeToLower c s job).1 rest).1,
        (processJob unicodeToLower c s job).2 ++
          (sweep unicodeToLower c (processJob unicodeToLower c s job).1 rest).2) = _
      rw [hp]

theorem delete_error_reported_and_sweep_continues_witness :
    Event.deleteFailed "a" notFoundError ∈
      (processJob id (fixedCluster 3601 (some notFoundError)) ()
        (sampleJob "a" (some 0) [])).2 ∧
    deleteCalls (sweep id (fixedCluster 3601 (some notFoundError)) ()
      [sampleJob "a" (some 0) [], sampleJob "h" (some 0) []]).2
        = [("default", "a"), ("default", "h")] :=
  ⟨((delete_error_reported_and_sweep_continues id (fixedCluster 3601 (some notFoundError)) ()
      (sampleJob "a" (some 0) []) [sampleJob "h" (some 0) []] (by decide)).1 notFoundError).mpr
      rfl,
   by decide⟩

/-- C9: eligibility is monotone in the clock. A record eligible at `now` is
eligible at every later `now2`, and a record for which an iteration called the
delete endpoint has it called again by any iteration that runs when the clock
reads the same or a later instant, in whatever cluster and world. -/
theorem eligible_mono (unicodeToLower : Char → Char) (job : Job) (now now2 : Time)
    (hle : now.nanos ≤ now2.nanos) :
    (eligible unicodeToLower job now = true → eligible unicodeToLower job now2 = true) ∧
    ∀ {σ τ : Type} (c : Cluster σ) (c2 : Cluster τ) (s : σ) (s2 : τ),
      (c.Now s).1 = now → (c2.Now s2).1 = now2 →
      deleteCalls (processJob unicodeToLower c s job).2 = [(job.Namespace, job.Name)] →
      deleteCalls (processJob unicodeToLower c2 s2 job).2 = [(job.Namespace, job.Name)] := by
  have hmono : eligible unicodeToLower job now = true → eligible unicodeToLower job now2 = true := by
    rw [eligible_iff, eligible_iff]
    rintro ⟨t, h1, h2, h3⟩
    exact ⟨t, h1, h2, by omega⟩
  refine ⟨hmono, ?_⟩
  intro σ τ c c2 s s2 hn hn2 hdel
  rw [processJob_trace, hn] at hdel
  rw [processJob_trace, hn2]
  by_cases he : eligible unicodeToLower job now = true
  · rw [if_pos (hmono he)]
  · rw [if_neg he] at hdel
    cases hdel

theorem eligible_mono_witness :
    eligible id (sampleJob "a" (some 0) []) (Time.ofSeconds 3601) = true ∧
      eligible id (sampleJob "a" (some 0) []) (Time.ofSeconds 7200) = true :=
  ⟨by decide,
   (eligible_mono id (sampleJob "a" (some 0) []) (Time.ofSeconds 3601) (Time.ofSeconds 7200)
    (by decide)).1 (by decide)⟩

/-- C10: for a retention override that is the decimal string of a natural number
`r ≤ 9223372036`, the `int64` product `time.Duration(secs) * time.Second` is the
exact product `r * 1000000000`, and a finished, non-ignored record completed at
`t` is deleted exactly when `t + r s < now`, where `now` is the clock reading of
its iteration. Deleted means that the delete endpoint is applied to the record's
namespace and name: the world after the iteration is the one that call returns,
and a recorder on the endpoint receives exactly that pair; otherwise the world
is the one the clock reading left and the recorder receives nothing. -/
theorem override_product_no_overflow {σ : Type} (unicodeToLower : Char → Char)
    (c : Cluster σ) (s : σ) (job : Job) (t : Time) (r : Nat) (hr : r ≤ 9223372036)
    (hdone : job.CompletionTime = some t)
    (hign : isIgnored unicodeToLower job = false)
    (hsecs : List.lookup deleteAfterSecondsAnnotation job.Annotations = some (toString r)) :
    wrapInt64 ((r : Int) * Second) = (r : Int) * 1000000000 ∧
    retentionDuration job = (r : Int) * 1000000000 ∧
    (processJob unicodeToLower c s job).1 =
      (if t.nanos + (r : Int) * 1000000000 < (c.Now s).1.nanos then
        (c.Delete job.Namespace job.Name (c.Now s).2).2
      else (c.Now s).2) ∧
    (∀ calls : List (String × String),
      (processJob unicodeToLower (recording c) (s, calls) job).1.2 =
        if t.nanos + (r : Int) * 1000000000 < (c.Now s).1.nanos then
          calls ++ [(job.Namespace, job.Name)]
        else calls) ∧
    deleteCalls (processJob unicodeToLower c s job).2 =
      (if t.nanos + (r : Int) * 1000000000 < (c.Now s).1.nanos then [(job.Namespace, job.Name)]
      else []) := by
  have hd := retentionDuration_decimal job r hr hsecs
  have he : eligible unicodeToLower job (c.Now s).1 = true ↔
      t.nanos + (r : Int) * 1000000000 < (c.Now s).1.nanos := by
    rw [eligible_iff, hd]
    constructor
    · rintro ⟨t2, h1, _, h3⟩
      rw [hdone] at h1
      cases h1
      exact h3
    · intro h
      exact ⟨t, hdone, hign, h⟩
  refine ⟨?_, hd, processJob_of_eligible_iff unicodeToLower c s job t _ hdone hign he⟩
  dsimp only [Second]
  rw [wrapInt64_of_range] <;> omega

theorem override_product_no_overflow_witness :
    wrapInt64 (((9223372036 : Nat) : Int) * Second) = ((9223372036 : Nat) : Int) * 1000000000 ∧
    (processJob id (recording (fixedCluster 9223372037 none)) ((), [])
      (sampleJob "m" (some 0) [("jhe.io/delete-after-seconds", "9223372036")])).1.2
        = [("default", "m")] ∧
    (processJob id (recording (fixedCluster 9223372036 none)) ((), [])
      (sampleJob "m" (some 0) [("jhe.io/delete-after-seconds", "9223372036")])).1.2
        = [] :=
  ⟨(override_product_no_overflow id (fixedCluster 9223372037 none) ()
      (sampleJob "m" (some 0) [("jhe.io/delete-after-seconds", "9223372036")])
      (Time.ofSeconds 0) 9223372036 (by decide) rfl (by decide) (by decide)).1,
   ((override_product_no_overflow id (fixedCluster 9223372037 none) ()
      (sampleJob "m" (some 0) [("jhe.io/delete-after-seconds", "9223372036")])
      (Time.ofSeconds 0) 9223372036 (by decide) rfl (by decide) (by decide)).2.2.2.1 []).trans
      (by decide),
   ((override_product_no_overflow id (fixedCluster 9223372036 none) ()
      (sampleJob "m" (some 0) [("jhe.io/delete-after-seconds", "9223372036")])
      (Time.ofSeconds 0) 9223372036 (by decide) rfl (by decide) (by decide)).2.2.2.1 []).trans
      (by decide)⟩

end Cleaner
